import Mathlib

set_option maxHeartbeats 1000000
set_option maxRecDepth 10000

/-!
Verification of the realtime speech bridge (handlers/tts_realtime.rs and
handlers/asr_realtime.rs).

The text-preparation pipeline `sanitize_text` and the two duplex forwarding
loops are embedded shallowly over `List Char` / message lists.  The Unicode
character classes (`\p{L}`, `\p{N}`, `\p{Zs}`, Rust's `char::is_whitespace`)
and the NFKC normalization come from external crates (regex,
unicode-normalization); they are modelled as the fields of a `Uni`
environment, so every theorem below holds for any instantiation of those
tables, in particular for the real ones.  A small executable instance `uniM`,
faithful to the real Unicode data on the characters it mentions, is used for
witnesses and counterexamples.
-/

/-- Unicode environment: the character-class tables and the NFKC
normalization used by the Rust code through the regex and
unicode-normalization crates.  `isL`, `isN`, `isZs` are the regex classes
`\p{L}`, `\p{N}`, `\p{Zs}`; `isWS` is Rust's `char::is_whitespace`
(Unicode `White_Space`, also used by `str::trim`); `nfkc` is
`UnicodeNormalization::nfkc`. -/
structure Uni where
  isL : Char → Bool
  isN : Char → Bool
  isZs : Char → Bool
  isWS : Char → Bool
  nfkc : List Char → List Char

/-- Step 1a of `sanitize_text`: `text.replace("\r\n", "\n")` — every
occurrence of the two-character sequence CR LF becomes a single LF,
scanning left to right. -/
def replaceCRLF : List Char → List Char
  | '\r' :: '\n' :: rest => '\n' :: replaceCRLF rest
  | c :: rest => c :: replaceCRLF rest
  | [] => []

/-- Step 1b of `sanitize_text`: `.replace('\r', "\n")` — every remaining
CR becomes LF. -/
def replaceCR (s : List Char) : List Char :=
  s.map fun c => if c = '\r' then '\n' else c

/-- Step 1 of `sanitize_text`: line-ending normalization, the composition of
the two `replace` calls in the source. -/
def normLines (s : List Char) : List Char :=
  replaceCR (replaceCRLF s)

/-- Step 3 of `sanitize_text`: the character map that keeps `'\n'`, turns
every other whitespace character into `' '`, and leaves the rest alone. -/
def unifyWS (u : Uni) (s : List Char) : List Char :=
  s.map fun c => if c = '\n' then '\n' else if u.isWS c then ' ' else c

/-- Whitelist of step 4 of `sanitize_text`: the complement of the regex
class `[^\p{L}\p{N}\p{Zs},，、.。．\n]`. -/
def allowed (u : Uni) (c : Char) : Bool :=
  u.isL c || u.isN c || u.isZs c ||
    decide (c ∈ [',', '，', '、', '.', '。', '．', '\n'])

/-- Step 4 of `sanitize_text`: `Regex::replace_all` of
`[^\p{L}\p{N}\p{Zs},，、.。．\n]+` with the empty string deletes exactly the
characters outside the whitelist. -/
def filterAllowed (u : Uni) (s : List Char) : List Char :=
  s.filter (allowed u)

/-- Step 5 of `sanitize_text`: `Regex::replace_all` of `" +"` with `" "`
replaces every maximal run of spaces by a single space; equivalently, a
space that is immediately followed by another space is dropped. -/
def compressSpaces : List Char → List Char
  | [] => []
  | [c] => [c]
  | c :: d :: rest =>
      if c = ' ' ∧ d = ' ' then compressSpaces (d :: rest)
      else c :: compressSpaces (d :: rest)

/-- Step 6 of `sanitize_text`: `Regex::replace_all` of `\n{3,}` with
`"\n\n"` caps every maximal run of line feeds at two; equivalently, a line
feed immediately followed by two further line feeds is dropped. -/
def compressNewlines : List Char → List Char
  | [] => []
  | [c] => [c]
  | [c, d] => [c, d]
  | c :: d :: e :: rest =>
      if c = '\n' ∧ d = '\n' ∧ e = '\n' then compressNewlines (d :: e :: rest)
      else c :: compressNewlines (d :: e :: rest)

/-- Trailing-whitespace removal, the right half of Rust's `str::trim`. -/
def trimEnd (u : Uni) : List Char → List Char
  | [] => []
  | c :: rest =>
      if (trimEnd u rest).isEmpty && u.isWS c then [] else c :: trimEnd u rest

/-- Step 7 of `sanitize_text`: Rust's `str::trim`, removal of leading and
trailing `White_Space` characters. -/
def trim (u : Uni) (s : List Char) : List Char :=
  trimEnd u (s.dropWhile u.isWS)

/-- The full text-preparation function `sanitize_text` of
handlers/tts_realtime.rs (lines 35–67): line-ending normalization, NFKC,
whitespace unification, whitelist filtering, space compression, blank-line
compression, trim. -/
def sanitize_text (u : Uni) (s : List Char) : List Char :=
  trim u (compressNewlines (compressSpaces
    (filterAllowed u (unifyWS u (u.nfkc (normLines s))))))

/-- Rust's `str::split_whitespace`: split at runs of `char::is_whitespace`,
discarding the separators and producing no empty token. -/
def splitWhitespace (u : Uni) : List Char → List (List Char)
  | [] => []
  | c :: rest =>
      if u.isWS c then splitWhitespace u rest
      else (c :: rest.takeWhile (fun d => !u.isWS d)) ::
        splitWhitespace u (rest.dropWhile (fun d => !u.isWS d))
  termination_by s => s.length
  decreasing_by
    · simp [Nat.lt_succ_iff]
    · simp [Nat.lt_succ_iff]
      exact (List.dropWhile_sublist _).length_le

/-- UTF-8 length of a string, Rust's `String::len` (a count of code units,
i.e. bytes). -/
def utf8Len (s : List Char) : Nat :=
  (s.map Char.utf8Size).sum

/-- The chunking step of `proxy_tts_realtime` (lines 324–329): if the
sanitized text is longer than 100 bytes it is split on whitespace,
otherwise the whole text is a single chunk. -/
def chunksOf (u : Uni) (y : List Char) : List (List Char) :=
  if 100 < utf8Len y then splitWhitespace u y else [y]

/-- Modelled from the spec: "the sanitized text with every run of
whitespace replaced by a single space" (§8, third testable property).  This
definition follows the spec's words and is compared against the
code-derived chunking in claim C5. -/
def collapseWS (u : Uni) : List Char → List Char
  | [] => []
  | c :: rest =>
      if u.isWS c then ' ' :: collapseWS u (rest.dropWhile u.isWS)
      else c :: collapseWS u rest
  termination_by s => s.length
  decreasing_by
    · simp [Nat.lt_succ_iff]
      exact (List.dropWhile_sublist _).length_le
    · simp [Nat.lt_succ_iff]

/-- Hangul-aware model of NFKC used by the executable instance `uniM`:
canonical composition turns the jamo pair U+1100 U+1161 into the syllable
U+AC00 (가), exactly as real NFKC does; every other character that `uniM`
mentions is NFKC-inert, so the map is the identity elsewhere. -/
def nfkcM : List Char → List Char
  | 'ᄀ' :: 'ᅡ' :: rest => '가' :: nfkcM rest
  | c :: rest => c :: nfkcM rest
  | [] => []

/-- Executable Unicode environment, faithful to the real Unicode tables on
the characters it mentions: ASCII letters and digits plus the Hangul
letters U+1100, U+1161, U+AC00 are `\p{L}`/`\p{N}`; the space is the only
`\p{Zs}` character mentioned; whitespace is space, tab, LF, CR; `nfkc` is
the Hangul-aware model above. -/
def uniM : Uni where
  isL c := decide (('A' ≤ c ∧ c ≤ 'Z') ∨ ('a' ≤ c ∧ c ≤ 'z') ∨
    c = 'ᄀ' ∨ c = 'ᅡ' ∨ c = '가')
  isN c := decide ('0' ≤ c ∧ c ≤ '9')
  isZs c := decide (c = ' ')
  isWS c := decide (c = ' ' ∨ c = '\t' ∨ c = '\n' ∨ c = '\r')
  nfkc := nfkcM

/-- Close-frame payload: WebSocket close code and reason. -/
structure CloseInfo where
  code : Nat
  reason : List Char
deriving DecidableEq, Repr

/-- Outbound events on the upstream transport.  Payload fields irrelevant to
every claim (the fresh `event_id`, the `session.update` body) are omitted;
`append` carries the text chunk of `input_text_buffer.append`, `audio`
carries the base64 payload of `input_audio_buffer.append`, `closeU` carries
the close payload of an upstream-bound close frame. -/
inductive Ev
  | sessionUpdate
  | append (chunk : List Char)
  | commit
  | audio (b64 : List Char)
  | closeU (f : Option CloseInfo)
deriving DecidableEq, Repr

/-- Inbound client frames seen by the synthesis client→upstream loop:
text frames, close frames (with their payload), other frames
(binary/ping/pong, ignored), and a transport receive error. -/
inductive CMsg
  | text (s : List Char)
  | close (f : Option CloseInfo)
  | other
  | recvErr
deriving DecidableEq, Repr

/-- Inbound client frames seen by the transcription client→upstream loop:
binary audio frames, close frames, other frames (text/ping/pong, ignored),
and a transport receive error. -/
inductive AMsg
  | bin (bytes : List Nat)
  | close (f : Option CloseInfo)
  | other
  | recvErr
deriving DecidableEq, Repr

/-- Abstraction of a parsed upstream JSON object, recording exactly the
fields the bridge reads: `get("type").and_then(as_str)`,
`get("delta").and_then(as_str)` and `get("text").and_then(as_str)`. -/
structure JMsg where
  tyP : Option (List Char)
  delta : Option (List Char)
  textF : Option (List Char)
deriving DecidableEq, Repr

/-- Inbound upstream frames seen by the upstream→client loops: a text frame
carrying `some m` when it parses as JSON (abstracted to `JMsg`) and `none`
when `serde_json::from_str` fails; a close frame; other frames
(binary/ping/pong, ignored); and a transport receive error. -/
inductive UMsg
  | jtext (m : Option JMsg)
  | close (f : Option CloseInfo)
  | other
  | recvErr
deriving DecidableEq, Repr

/-- Outbound frames on the client transport: binary audio, text, close. -/
inductive COut
  | bin (bytes : List Nat)
  | text (s : List Char)
  | closeC (f : Option CloseInfo)
deriving DecidableEq, Repr

/-- Value of a base64 standard-alphabet character. -/
def b64Val (c : Char) : Option Nat :=
  if 'A' ≤ c ∧ c ≤ 'Z' then some (c.toNat - 65)
  else if 'a' ≤ c ∧ c ≤ 'z' then some (c.toNat - 71)
  else if '0' ≤ c ∧ c ≤ '9' then some (c.toNat + 4)
  else if c = '+' then some 62
  else if c = '/' then some 63
  else none

/-- Base64 decoding with the `base64` crate's `STANDARD` engine: canonical
padding required (length a multiple of four, `=` only at the very end) and
non-zero trailing bits rejected. -/
def b64decode : List Char → Option (List Nat)
  | [] => some []
  | a :: b :: c :: d :: rest =>
      match b64Val a, b64Val b with
      | some va, some vb =>
          if c = '=' then
            if d = '=' ∧ rest = [] ∧ vb % 16 = 0 then some [va * 4 + vb / 16]
            else none
          else
            match b64Val c with
            | some vc =>
                if d = '=' then
                  if rest = [] ∧ vc % 4 = 0 then
                    some [va * 4 + vb / 16, vb % 16 * 16 + vc / 4]
                  else none
                else
                  match b64Val d with
                  | some vd =>
                      (b64decode rest).map fun bs =>
                        (va * 4 + vb / 16) :: (vb % 16 * 16 + vc / 4) ::
                          (vc % 4 * 64 + vd) :: bs
                  | none => none
            | none => none
      | _, _ => none
  | _ => none

/-- One base64 character from a sextet value. -/
def b64Chr (n : Nat) : Char :=
  if n < 26 then Char.ofNat (65 + n)
  else if n < 52 then Char.ofNat (71 + n)
  else if n < 62 then Char.ofNat (n - 4)
  else if n = 62 then '+' else '/'

/-- Base64 encoding with the `base64` crate's `STANDARD` engine (padded). -/
def b64encode : List Nat → List Char
  | [] => []
  | [a] => [b64Chr (a / 4), b64Chr (a % 4 * 16), '=', '=']
  | [a, b] => [b64Chr (a / 4), b64Chr (a % 4 * 16 + b / 16),
      b64Chr (b % 16 * 4), '=']
  | a :: b :: c :: rest =>
      b64Chr (a / 4) :: b64Chr (a % 4 * 16 + b / 16) ::
        b64Chr (b % 16 * 4 + c / 64) :: b64Chr (c % 64) :: b64encode rest

/-- Send oracle: `o n` tells whether the n-th send attempt on a transport
succeeds.  A trace records every attempted send with its outcome. -/
abbrev Oracle := Nat → Bool

/-- The inner `for chunk in chunks` loop of the synthesis client→upstream
task (tts_realtime.rs lines 332–356): one `input_text_buffer.append` per
chunk; a serialization or send failure logs and leaves the `for` loop,
abandoning the remaining chunks.  Returns the trace of attempts, the next
attempt index, and whether all chunks were sent. -/
def sendChunks (o : Oracle) (n : Nat) :
    List (List Char) → List (Ev × Bool) × Nat × Bool
  | [] => ([], n, true)
  | c :: cs =>
      if o n then
        let r := sendChunks o (n + 1) cs
        ((Ev.append c, true) :: r.1, r.2)
      else ([(Ev.append c, false)], n + 1, false)

/-- The synthesis client→upstream forwarding loop of `proxy_tts_realtime`
(lines 316–391): a text frame is sanitized and chunked, the chunks are sent
(`sendChunks`), and the `input_text_buffer.commit` is then attempted
unconditionally — only a commit serialization/send failure terminates the
loop; a client close frame is forwarded upstream as `Close(None)` and ends
the loop; other frames are ignored; a receive error ends the loop.  The
fixed 200 ms pacing sleeps do not affect the trace and are not modelled. -/
def tts_client_to_upstream (o : Oracle) (u : Uni) (n : Nat) :
    List CMsg → List (Ev × Bool)
  | [] => []
  | CMsg.text s :: rest =>
      let r := sendChunks o n (chunksOf u (sanitize_text u s))
      r.1 ++ (Ev.commit, o r.2.1) ::
        (if o r.2.1 then tts_client_to_upstream o u (r.2.1 + 1) rest else [])
  | CMsg.close _ :: _ => [(Ev.closeU none, o n)]
  | CMsg.other :: rest => tts_client_to_upstream o u n rest
  | CMsg.recvErr :: _ => []

/-- The transcription client→upstream forwarding loop of
`proxy_asr_realtime` (lines 83–125): a binary frame is base64-encoded and
sent as `input_audio_buffer.append`; a failure ends the loop; a client
close frame is forwarded upstream as `Close(None)` and ends the loop. -/
def asr_client_to_upstream (o : Oracle) (n : Nat) :
    List AMsg → List (Ev × Bool)
  | [] => []
  | AMsg.bin bytes :: rest =>
      if o n then (Ev.audio (b64encode bytes), true) ::
        asr_client_to_upstream o (n + 1) rest
      else [(Ev.audio (b64encode bytes), false)]
  | AMsg.close _ :: _ => [(Ev.closeU none, o n)]
  | AMsg.other :: rest => asr_client_to_upstream o n rest
  | AMsg.recvErr :: _ => []

/-- The synthesis upstream→client forwarding loop of `proxy_tts_realtime`
(lines 394–467): only `response.audio.delta` messages are forwarded, as one
binary frame holding the base64-decoded `delta`; a missing `delta`, a
decode failure, a parse failure or any other discriminator is logged and
skipped; an upstream close frame is forwarded to the client preserving its
payload; a client send failure or receive error ends the loop. -/
def tts_upstream_to_client (o : Oracle) (n : Nat) :
    List UMsg → List (COut × Bool)
  | [] => []
  | UMsg.jtext none :: rest => tts_upstream_to_client o n rest
  | UMsg.jtext (some m) :: rest =>
      if m.tyP.getD [] = "response.audio.delta".toList then
        match m.delta with
        | none => tts_upstream_to_client o n rest
        | some d =>
            match b64decode d with
            | none => tts_upstream_to_client o n rest
            | some bytes =>
                if o n then (COut.bin bytes, true) ::
                  tts_upstream_to_client o (n + 1) rest
                else [(COut.bin bytes, false)]
      else tts_upstream_to_client o n rest
  | UMsg.close f :: _ => [(COut.closeC f, o n)]
  | UMsg.other :: rest => tts_upstream_to_client o n rest
  | UMsg.recvErr :: _ => []

/-- The transcription upstream→client forwarding loop of
`proxy_asr_realtime` (lines 128–199): only
`conversation.item.input_audio_transcription.text` messages are forwarded,
as a plain text frame holding the `text` field (skipped silently when the
field is absent); `...transcription.failed` and `error` are logged only;
parse failures and other discriminators are skipped; an upstream close
frame is forwarded to the client preserving its payload. -/
def asr_upstream_to_client (o : Oracle) (n : Nat) :
    List UMsg → List (COut × Bool)
  | [] => []
  | UMsg.jtext none :: rest => asr_upstream_to_client o n rest
  | UMsg.jtext (some m) :: rest =>
      if m.tyP.getD [] = "conversation.item.input_audio_transcription.text".toList then
        match m.textF with
        | none => asr_upstream_to_client o n rest
        | some t =>
            if o n then (COut.text t, true) ::
              asr_upstream_to_client o (n + 1) rest
            else [(COut.text t, false)]
      else asr_upstream_to_client o n rest
  | UMsg.close f :: _ => [(COut.closeC f, o n)]
  | UMsg.other :: rest => asr_upstream_to_client o n rest
  | UMsg.recvErr :: _ => []

/-- Upstream-bound send trace of a whole synthesis session
(`proxy_tts_realtime`, lines 294–313 then 316–391): the `session.update`
bootstrap event is sent first (attempt 0); a failure there aborts the
session before either loop starts (the `?` operator); otherwise the
client→upstream loop follows.  The 100 ms settle sleep does not affect the
trace. -/
def tts_upstream_sends (o : Oracle) (u : Uni) (msgs : List CMsg) :
    List (Ev × Bool) :=
  if o 0 then (Ev.sessionUpdate, true) :: tts_client_to_upstream o u 1 msgs
  else [(Ev.sessionUpdate, false)]

/-- Upstream-bound send trace of a whole transcription session
(`proxy_asr_realtime`, lines 58–80 then 83–125). -/
def asr_upstream_sends (o : Oracle) (msgs : List AMsg) :
    List (Ev × Bool) :=
  if o 0 then (Ev.sessionUpdate, true) :: asr_client_to_upstream o 1 msgs
  else [(Ev.sessionUpdate, false)]

/-- Discriminates the `session.update` event. -/
def isSessionUpdate : Ev → Bool
  | Ev.sessionUpdate => true
  | _ => false

/-- Number of `session.update` attempts in an upstream send trace. -/
def countSU (tr : List (Ev × Bool)) : Nat :=
  tr.countP fun e => isSessionUpdate e.1

/-- Property asserted by claim C3: once any send attempt fails, the trace
records no later attempt at all (the loop stops immediately). -/
def noEventAfterFailure : List (Ev × Bool) → Bool
  | [] => true
  | (_, b) :: rest => if b then noEventAfterFailure rest else rest.isEmpty

/-- State machine behind `afterFailure`.  The flag records that the
previous attempt was a failed `append`, so the next attempt must be the
`commit` of the same frame: the trace goes on exactly when that commit
succeeds.  Without the flag, a failed attempt must close the trace. -/
def afterFailureAux : List (Ev × Bool) → Bool → Bool
  | [], pending => !pending
  | (e, b) :: rest, pending =>
      if pending then
        match b, e with
        | true, Ev.commit => afterFailureAux rest false
        | false, Ev.commit => rest.isEmpty
        | _, _ => false
      else
        match b, e with
        | false, Ev.append _ => afterFailureAux rest true
        | false, _ => rest.isEmpty
        | true, _ => afterFailureAux rest false

/-- What the synthesis client→upstream loop actually guarantees after a
failure: a failed `append` attempt is followed by exactly the `commit`
attempt of the same frame — the loop goes on if and only if that commit
succeeds — while a failed `commit` (or close) attempt is the last attempt
of the trace. -/
def afterFailure (tr : List (Ev × Bool)) : Bool :=
  afterFailureAux tr false

/-- Absence of two adjacent spaces, the normal form established by
`compressSpaces`. -/
def noTwoSpaces : List Char → Bool
  | [] => true
  | [_] => true
  | c :: d :: rest => !(c = ' ' ∧ d = ' ' : Bool) && noTwoSpaces (d :: rest)

/-- Absence of three adjacent line feeds, the normal form established by
`compressNewlines`. -/
def noTripleNL : List Char → Bool
  | [] => true
  | [_] => true
  | [_, _] => true
  | c :: d :: e :: rest =>
      !(c = '\n' ∧ d = '\n' ∧ e = '\n' : Bool) && noTripleNL (d :: e :: rest)

theorem mem_compressSpaces {c : Char} :
    ∀ (s : List Char), c ∈ compressSpaces s → c ∈ s
  | [] => by simp [compressSpaces]
  | [d] => by simp [compressSpaces]
  | d :: e :: rest => by
      simp only [compressSpaces]
      split
      · exact fun h => List.mem_cons_of_mem _ (mem_compressSpaces _ h)
      · intro h
        rcases List.mem_cons.1 h with h | h
        · simp [h]
        · exact List.mem_cons_of_mem _ (mem_compressSpaces _ h)

theorem mem_compressNewlines {c : Char} :
    ∀ (s : List Char), c ∈ compressNewlines s → c ∈ s
  | [] => by simp [compressNewlines]
  | [d] => by simp [compressNewlines]
  | [d, e] => by simp [compressNewlines]
  | d :: e :: f :: rest => by
      simp only [compressNewlines]
      split
      · exact fun h => List.mem_cons_of_mem _ (mem_compressNewlines _ h)
      · intro h
        rcases List.mem_cons.1 h with h | h
        · simp [h]
        · exact List.mem_cons_of_mem _ (mem_compressNewlines _ h)

theorem mem_trimEnd {u : Uni} {c : Char} :
    ∀ (s : List Char), c ∈ trimEnd u s → c ∈ s
  | [] => by simp [trimEnd]
  | d :: rest => by
      simp only [trimEnd]
      split
      · simp
      · intro h
        rcases List.mem_cons.1 h with h | h
        · simp [h]
        · exact List.mem_cons_of_mem _ (mem_trimEnd _ h)

theorem mem_trim {u : Uni} {c : Char} {s : List Char} (h : c ∈ trim u s) :
    c ∈ s :=
  (List.dropWhile_sublist u.isWS).mem (mem_trimEnd _ h)

theorem mem_sanitize_allowed {u : Uni} {x : List Char} {c : Char}
    (h : c ∈ sanitize_text u x) : allowed u c = true := by
  have h1 : c ∈ filterAllowed u (unifyWS u (u.nfkc (normLines x))) :=
    mem_compressSpaces _ (mem_compressNewlines _ (mem_trim h))
  exact (List.mem_filter.1 h1).2

/-- C1: for every input string, every character of the output of
`sanitize_text` lies in the whitelist `allowed` — a letter (`\p{L}`), a
digit (`\p{N}`), a separator-space (`\p{Zs}`), one of the comma forms
`,` `，` `、`, one of the period forms `.` `。` `．`, or the line feed;
no other code point ever appears in the output. -/
theorem C1_sanitize_whitelist (u : Uni) (x : List Char) :
    ∀ c ∈ sanitize_text u x, allowed u c = true :=
  fun _ hc => mem_sanitize_allowed hc

/-- Witness for C1 at a concrete input. -/
theorem C1_witness :
    'H' ∈ sanitize_text uniM "Hi!".toList ∧ allowed uniM 'H' = true :=
  ⟨by decide, C1_sanitize_whitelist uniM "Hi!".toList 'H' (by decide)⟩

/-- C4 fails on the code: a client close frame carrying a close code and
reason is forwarded upstream as a close frame with no payload
(`WsMessage::Close(None)`, tts_realtime.rs line 378, asr_realtime.rs
line 113), so the code and reason are not preserved in the
client→upstream direction. -/
theorem C4_counterexample :
    tts_client_to_upstream (fun _ => true) uniM 0
        [CMsg.close (some ⟨1000, "bye".toList⟩)] = [(Ev.closeU none, true)]
    ∧ Ev.closeU none ≠ Ev.closeU (some ⟨1000, "bye".toList⟩) :=
  ⟨rfl, by decide⟩

/-- C4 amended: an inbound close frame is translated to a close frame on
the opposite transport in both capabilities and both directions, but the
close code and reason are preserved only upstream→client; in the
client→upstream direction the bridge always sends a close frame with no
payload, discarding any code and reason the client frame carried. -/
theorem C4_amended_close_translation (o : Oracle) (u : Uni) (n : Nat)
    (f : Option CloseInfo) (crest : List CMsg) (arest : List AMsg)
    (urest : List UMsg) :
    tts_upstream_to_client o n (UMsg.close f :: urest) = [(COut.closeC f, o n)]
    ∧ asr_upstream_to_client o n (UMsg.close f :: urest) = [(COut.closeC f, o n)]
    ∧ tts_client_to_upstream o u n (CMsg.close f :: crest) =
        [(Ev.closeU none, o n)]
    ∧ asr_client_to_upstream o n (AMsg.close f :: arest) =
        [(Ev.closeU none, o n)] :=
  ⟨rfl, rfl, rfl, rfl⟩

/-- C6: a `response.audio.delta` upstream message whose `delta` field holds
valid base64 makes the synthesis bridge attempt exactly one binary frame to
the client, holding the decoded bytes, and no text frame; a missing `delta`
or a failed decode forwards nothing and the loop continues. -/
theorem C6_audio_delta (o : Oracle) (n : Nat) (m : JMsg) (rest : List UMsg)
    (d : List Char) (bytes : List Nat)
    (hty : m.tyP = some "response.audio.delta".toList) :
    (m.delta = some d → b64decode d = some bytes → o n = true →
      tts_upstream_to_client o n (UMsg.jtext (some m) :: rest) =
        (COut.bin bytes, true) :: tts_upstream_to_client o (n + 1) rest)
    ∧ (m.delta = none →
      tts_upstream_to_client o n (UMsg.jtext (some m) :: rest) =
        tts_upstream_to_client o n rest)
    ∧ (m.delta = some d → b64decode d = none →
      tts_upstream_to_client o n (UMsg.jtext (some m) :: rest) =
        tts_upstream_to_client o n rest) := by
  refine ⟨fun h1 h2 h3 => ?_, fun h1 => ?_, fun h1 h2 => ?_⟩
  · simp [tts_upstream_to_client, hty, h1, h2, h3]
  · simp [tts_upstream_to_client, hty, h1]
  · simp [tts_upstream_to_client, hty, h1, h2]

/-- Witness for C6 at a concrete message. -/
theorem C6_witness :
    tts_upstream_to_client (fun _ => true) 0
        [UMsg.jtext (some ⟨some "response.audio.delta".toList,
          some "aGk=".toList, none⟩)] = [(COut.bin [104, 105], true)] := by
  have h := (C6_audio_delta (fun _ => true) 0
    ⟨some "response.audio.delta".toList, some "aGk=".toList, none⟩ []
    "aGk=".toList [104, 105] rfl).1 rfl (by decide) rfl
  exact h

/-- C7: upstream messages whose discriminator is `error` or
`conversation.item.input_audio_transcription.failed`, and upstream text
frames that fail to parse as JSON, are forwarded to the client by neither
bridge, and both forwarding loops continue with the subsequent messages. -/
theorem C7_errors_not_forwarded (o : Oracle) (n : Nat) (m : JMsg)
    (rest : List UMsg) :
    (asr_upstream_to_client o n (UMsg.jtext none :: rest) =
        asr_upstream_to_client o n rest)
    ∧ (tts_upstream_to_client o n (UMsg.jtext none :: rest) =
        tts_upstream_to_client o n rest)
    ∧ (m.tyP = some "error".toList ∨
        m.tyP =
          some "conversation.item.input_audio_transcription.failed".toList →
      asr_upstream_to_client o n (UMsg.jtext (some m) :: rest) =
          asr_upstream_to_client o n rest
      ∧ tts_upstream_to_client o n (UMsg.jtext (some m) :: rest) =
          tts_upstream_to_client o n rest) := by
  refine ⟨rfl, rfl, fun h => ⟨?_, ?_⟩⟩ <;>
    rcases h with h | h <;>
      simp only [asr_upstream_to_client, tts_upstream_to_client, h,
        Option.getD_some] <;>
        rw [if_neg (by decide)]

/-- Witness for C7 at a concrete `error` message. -/
theorem C7_witness :
    asr_upstream_to_client (fun _ => true) 0
        [UMsg.jtext (some ⟨some "error".toList, none, none⟩)] = [] := by
  have h := (C7_errors_not_forwarded (fun _ => true) 0
    ⟨some "error".toList, none, none⟩ []).2.2 (Or.inl rfl)
  exact h.1

theorem countSU_nil : countSU [] = 0 := rfl

theorem countSU_cons (e : Ev × Bool) (tr : List (Ev × Bool)) :
    countSU (e :: tr) = countSU tr + (if isSessionUpdate e.1 then 1 else 0) :=
  List.countP_cons _ _ _

theorem aFA_true (e : Ev) (t : List (Ev × Bool)) :
    afterFailureAux ((e, true) :: t) false = afterFailureAux t false := rfl

theorem aFA_fail_append (c : List Char) (t : List (Ev × Bool)) :
    afterFailureAux ((Ev.append c, false) :: t) false =
      afterFailureAux t true := rfl

theorem aFA_fail_commit (t : List (Ev × Bool)) :
    afterFailureAux ((Ev.commit, false) :: t) false = t.isEmpty := rfl

theorem aFA_fail_closeU (f : Option CloseInfo) (t : List (Ev × Bool)) :
    afterFailureAux ((Ev.closeU f, false) :: t) false = t.isEmpty := rfl

theorem aFA_pend_commit_true (t : List (Ev × Bool)) :
    afterFailureAux ((Ev.commit, true) :: t) true = afterFailureAux t false :=
  rfl

theorem aFA_pend_commit_false (t : List (Ev × Bool)) :
    afterFailureAux ((Ev.commit, false) :: t) true = t.isEmpty := rfl

theorem countSU_sendChunks :
    ∀ (cs : List (List Char)) (o : Oracle) (n : Nat),
      countSU (sendChunks o n cs).1 = 0
  | [], _, _ => rfl
  | c :: cs, o, n => by
      simp only [sendChunks]
      split
      · simpa [countSU, isSessionUpdate] using countSU_sendChunks cs o (n + 1)
      · simp [countSU, isSessionUpdate]

theorem countSU_tts_c2u :
    ∀ (msgs : List CMsg) (o : Oracle) (u : Uni) (n : Nat),
      countSU (tts_client_to_upstream o u n msgs) = 0
  | [], _, _, _ => rfl
  | CMsg.text s :: rest, o, u, n => by
      have h1 := countSU_sendChunks (chunksOf u (sanitize_text u s)) o n
      have h2 := countSU_tts_c2u rest o u
        ((sendChunks o n (chunksOf u (sanitize_text u s))).2.1 + 1)
      simp only [countSU] at h1 h2
      simp only [tts_client_to_upstream, countSU, List.countP_append,
        List.countP_cons, h1]
      split
      · rw [h2]
        simp [isSessionUpdate]
      · simp [isSessionUpdate]
  | CMsg.close f :: rest, o, u, n => by simp [tts_client_to_upstream, countSU, isSessionUpdate]
  | CMsg.other :: rest, o, u, n => countSU_tts_c2u rest o u n
  | CMsg.recvErr :: rest, o, u, n => rfl

theorem countSU_asr_c2u :
    ∀ (msgs : List AMsg) (o : Oracle) (n : Nat),
      countSU (asr_client_to_upstream o n msgs) = 0
  | [], _, _ => rfl
  | AMsg.bin b :: rest, o, n => by
      simp only [asr_client_to_upstream]
      split
      · simpa [countSU, isSessionUpdate] using countSU_asr_c2u rest o (n + 1)
      · simp [countSU, isSessionUpdate]
  | AMsg.close f :: rest, o, n => by simp [asr_client_to_upstream, countSU, isSessionUpdate]
  | AMsg.other :: rest, o, n => countSU_asr_c2u rest o n
  | AMsg.recvErr :: rest, o, n => rfl

/-- C9: in both capabilities, the upstream send trace of a session contains
exactly one `session.update` attempt, and it is the very first attempted
send — before any data event and before the client→upstream loop starts
consuming client input. -/
theorem C9_session_update_first (o : Oracle) (u : Uni) (msgs : List CMsg)
    (amsgs : List AMsg) :
    countSU (tts_upstream_sends o u msgs) = 1
    ∧ (tts_upstream_sends o u msgs).head? = some (Ev.sessionUpdate, o 0)
    ∧ countSU (asr_upstream_sends o amsgs) = 1
    ∧ (asr_upstream_sends o amsgs).head? = some (Ev.sessionUpdate, o 0) := by
  unfold tts_upstream_sends asr_upstream_sends
  have h1 := countSU_tts_c2u msgs o u 1
  have h2 := countSU_asr_c2u amsgs o 1
  cases h : o 0 <;>
    refine ⟨?_, ?_, ?_, ?_⟩ <;>
      simp [countSU_cons, countSU_nil, h1, h2, isSessionUpdate]

theorem sendChunks_all_ok :
    ∀ (cs : List (List Char)) (o : Oracle) (n : Nat),
      (∀ k, k < cs.length → o (n + k) = true) →
      sendChunks o n cs =
        ((cs.map fun c => (Ev.append c, true)), n + cs.length, true)
  | [], o, n, _ => by simp [sendChunks]
  | c :: cs, o, n, h => by
      have h0 : o n = true := by simpa using h 0 (by simp)
      have hrec := sendChunks_all_ok cs o (n + 1) fun k hk => by
        have := h (k + 1) (by simpa using Nat.succ_lt_succ hk)
        simpa [Nat.add_assoc, Nat.add_comm 1 k] using this
      simp [sendChunks, h0, hrec, Nat.add_assoc, Nat.add_comm 1 cs.length]

/-- C8: when every upstream send of the frame succeeds, a client text frame
makes the synthesis loop send one `input_text_buffer.append` per chunk, in
the chunks' original order, followed by exactly one
`input_text_buffer.commit`; the commit is attempted only after the last
chunk, and the loop then continues with the remaining frames. -/
theorem C8_append_then_commit (o : Oracle) (u : Uni) (n : Nat)
    (s : List Char) (rest : List CMsg)
    (h : ∀ k, k ≤ (chunksOf u (sanitize_text u s)).length → o (n + k) = true) :
    tts_client_to_upstream o u n (CMsg.text s :: rest) =
      ((chunksOf u (sanitize_text u s)).map fun c => (Ev.append c, true))
        ++ (Ev.commit, true) ::
          tts_client_to_upstream o u
            (n + (chunksOf u (sanitize_text u s)).length + 1) rest := by
  have hall := sendChunks_all_ok (chunksOf u (sanitize_text u s)) o n
    fun k hk => h k (Nat.le_of_lt hk)
  have hc : o (n + (chunksOf u (sanitize_text u s)).length) = true :=
    h _ (Nat.le_refl _)
  simp [tts_client_to_upstream, hall, hc]

/-- Witness for C8 at a concrete frame. -/
theorem C8_witness :
    tts_client_to_upstream (fun _ => true) uniM 0 [CMsg.text "hi".toList] =
      [(Ev.append "hi".toList, true), (Ev.commit, true)] := by
  rw [C8_append_then_commit (fun _ => true) uniM 0 "hi".toList []
    (fun k _ => rfl)]
  decide

/-- C3 fails on the code: with an upstream transport that fails the very
first send, the append of the (only) chunk of the first text frame fails,
yet the `input_text_buffer.commit` of that frame is still sent — the inner
`for` loop's `break` does not leave the `while` loop — and, the commit
having succeeded, the loop goes on to process the second text frame. -/
theorem C3_counterexample :
    tts_client_to_upstream (fun n => decide (n ≠ 0)) uniM 0
        [CMsg.text "hi".toList, CMsg.text "yo".toList] =
      [(Ev.append "hi".toList, false), (Ev.commit, true),
        (Ev.append "yo".toList, true), (Ev.commit, true)]
    ∧ noEventAfterFailure (tts_client_to_upstream (fun n => decide (n ≠ 0))
        uniM 0 [CMsg.text "hi".toList, CMsg.text "yo".toList]) = false := by
  constructor <;> decide

theorem afterFailure_frame :
    ∀ (cs : List (List Char)) (o : Oracle) (n : Nat)
      (g : Nat → List (Ev × Bool)),
      (∀ m, afterFailure (g m) = true) →
      afterFailure ((sendChunks o n cs).1 ++
        (Ev.commit, o (sendChunks o n cs).2.1) ::
          (if o (sendChunks o n cs).2.1 then g ((sendChunks o n cs).2.1 + 1)
           else [])) = true
  | [], o, n, g, hg => by
      simp only [sendChunks]
      cases h : o n
      · simp [afterFailure, h, aFA_fail_commit]
      · simp only [afterFailure, h, if_true, List.nil_append, aFA_true]
        exact hg (n + 1)
  | c :: cs, o, n, g, hg => by
      cases h : o n
      · simp only [sendChunks, h, Bool.false_eq_true, if_false,
          afterFailure, List.cons_append, List.nil_append, aFA_fail_append]
        cases h2 : o (n + 1)
        · simp [h2, aFA_pend_commit_false]
        · simp only [h2, if_true, aFA_pend_commit_true]
          exact hg (n + 2)
      · simp only [sendChunks, h, if_true, afterFailure, List.cons_append,
          aFA_true]
        exact afterFailure_frame cs o (n + 1) g hg

/-- C3 amended: in the synthesis client→upstream loop, a serialization or
send failure on the `input_text_buffer.commit` event (or on the close
frame) terminates the loop with no further send attempt; a serialization
or send failure on a chunk's `input_text_buffer.append` abandons only the
remaining chunks of that frame — the commit of that frame is still
attempted, and the loop terminates exactly when that commit attempt also
fails. -/
theorem C3_amended_failure_control :
    ∀ (msgs : List CMsg) (o : Oracle) (u : Uni) (n : Nat),
      afterFailure (tts_client_to_upstream o u n msgs) = true
  | [], _, _, _ => rfl
  | CMsg.text s :: rest, o, u, n =>
      afterFailure_frame (chunksOf u (sanitize_text u s)) o n
        (fun m => tts_client_to_upstream o u m rest)
        (fun m => C3_amended_failure_control rest o u m)
  | CMsg.close f :: rest, o, u, n => by
      cases h : o n <;>
        simp [tts_client_to_upstream, h, afterFailure, aFA_true,
          aFA_fail_closeU, afterFailureAux]
  | CMsg.other :: rest, o, u, n => C3_amended_failure_control rest o u n
  | CMsg.recvErr :: rest, o, u, n => rfl

/-- C10: a client text frame whose sanitized text is empty still produces
exactly one chunk, the empty string (the non-split branch wraps the whole
sanitized text), so the loop sends one `input_text_buffer.append` whose
text is empty, followed by the `input_text_buffer.commit`. -/
theorem C10_empty_chunk (o : Oracle) (u : Uni) (n : Nat) (s : List Char)
    (rest : List CMsg) (h0 : sanitize_text u s = [])
    (h1 : o n = true) (h2 : o (n + 1) = true) :
    chunksOf u (sanitize_text u s) = [[]]
    ∧ tts_client_to_upstream o u n (CMsg.text s :: rest) =
        (Ev.append [], true) :: (Ev.commit, true) ::
          tts_client_to_upstream o u (n + 2) rest := by
  constructor
  · rw [h0]
    simp [chunksOf, utf8Len]
  · simp [tts_client_to_upstream, h0, chunksOf, utf8Len, sendChunks, h1, h2]

/-- Witness for C10 at an input made of disallowed characters only. -/
theorem C10_witness :
    chunksOf uniM (sanitize_text uniM "!!!".toList) = [[]]
    ∧ tts_client_to_upstream (fun _ => true) uniM 0 [CMsg.text "!!!".toList] =
        [(Ev.append [], true), (Ev.commit, true)] := by
  have h := C10_empty_chunk (fun _ => true) uniM 0 "!!!".toList []
    (by decide) rfl rfl
  exact ⟨h.1, h.2⟩

theorem intercalate_two (sep a b : List Char) (l : List (List Char)) :
    List.intercalate sep (a :: b :: l) =
      a ++ sep ++ List.intercalate sep (b :: l) := by
  simp [List.intercalate, List.intersperse_cons_cons]

theorem intercalate_one (sep a : List Char) :
    List.intercalate sep [a] = a := by
  simp [List.intercalate]

theorem splitWhitespace_ne_nil (u : Uni) :
    ∀ (s : List Char), ∀ w ∈ splitWhitespace u s, w ≠ []
  | [] => by simp [splitWhitespace]
  | c :: rest => by
      rw [splitWhitespace]
      split
      · exact fun w hw => splitWhitespace_ne_nil u rest w hw
      · intro w hw
        rcases List.mem_cons.1 hw with h | h
        · subst h; simp
        · exact splitWhitespace_ne_nil u (rest.dropWhile fun d => !u.isWS d) w h
  termination_by s => s.length
  decreasing_by
    all_goals simp only [List.length_cons, Nat.lt_succ_iff]
    all_goals first
      | exact (List.dropWhile_sublist _).length_le
      | exact Nat.le_refl _

theorem splitWhitespace_dropWhile (u : Uni) :
    ∀ (s : List Char),
      splitWhitespace u (s.dropWhile u.isWS) = splitWhitespace u s
  | [] => rfl
  | c :: rest => by
      rw [List.dropWhile_cons]
      split
      · rw [splitWhitespace_dropWhile u rest]
        rw [splitWhitespace]
        simp_all
      · rfl

theorem collapseWS_nonws_append (u : Uni) :
    ∀ (w t : List Char), (∀ d ∈ w, u.isWS d = false) →
      collapseWS u (w ++ t) = w ++ collapseWS u t
  | [], t, _ => by simp
  | d :: w, t, h => by
      have hd : u.isWS d = false := h d (by simp)
      rw [List.cons_append, collapseWS, if_neg (by simp [hd]),
        collapseWS_nonws_append u w t fun e he => h e (by simp [he]),
        List.cons_append]

theorem dropWhile_eq_self_of_head (p : Char → Bool) (s : List Char)
    (h : ∀ a, s.head? = some a → p a = false) : s.dropWhile p = s := by
  cases s with
  | nil => rfl
  | cons c t => rw [List.dropWhile_cons, if_neg (by simp [h c rfl])]

theorem trimEnd_head (u : Uni) :
    ∀ (s : List Char), trimEnd u s = [] ∨ (trimEnd u s).head? = s.head?
  | [] => Or.inl rfl
  | c :: rest => by
      rw [trimEnd]
      split
      · exact Or.inl rfl
      · exact Or.inr rfl

theorem trimEnd_getLast (u : Uni) :
    ∀ (s : List Char) (a : Char),
      (trimEnd u s).getLast? = some a → u.isWS a = false
  | [], a => by simp [trimEnd]
  | c :: rest, a => by
      rw [trimEnd]
      split
      · simp
      · rename_i hg
        cases htr : trimEnd u rest with
        | nil =>
            intro h
            have hca : c = a := by simpa using h
            subst hca
            rw [htr] at hg
            simpa using hg
        | cons e t =>
            rw [List.getLast?_cons_cons]
            intro h
            exact trimEnd_getLast u rest a (by rw [htr]; exact h)

theorem trim_dropWhile (u : Uni) (s : List Char) :
    (trim u s).dropWhile u.isWS = trim u s := by
  unfold trim
  apply dropWhile_eq_self_of_head
  intro a ha
  rcases trimEnd_head u (s.dropWhile u.isWS) with h | h
  · rw [h] at ha; simp at ha
  · rw [h] at ha
    have := List.head?_dropWhile_not u.isWS s
    rw [ha] at this
    exact this

theorem trim_getLast (u : Uni) (s : List Char) (a : Char)
    (h : (trim u s).getLast? = some a) : u.isWS a = false :=
  trimEnd_getLast u _ a h

theorem sanitize_dropWhile (u : Uni) (x : List Char) :
    (sanitize_text u x).dropWhile u.isWS = sanitize_text u x :=
  trim_dropWhile u _

theorem sanitize_getLast (u : Uni) (x : List Char) (a : Char)
    (h : (sanitize_text u x).getLast? = some a) : u.isWS a = false :=
  trim_getLast u _ a h

theorem splitWhitespace_ne_nil_of_ne_nil (u : Uni) (s : List Char)
    (hne : s ≠ []) (hdw : s.dropWhile u.isWS = s) :
    splitWhitespace u s ≠ [] := by
  cases s with
  | nil => exact absurd rfl hne
  | cons c t =>
      have hc : u.isWS c = false := by
        by_contra hc
        rw [List.dropWhile_cons, if_pos (by simpa using hc)] at hdw
        have := (List.dropWhile_sublist u.isWS (l := t)).length_le
        rw [hdw] at this
        simp at this
      rw [splitWhitespace, if_neg (by simp [hc])]
      simp

theorem head_nws (p : Char → Bool) (c : Char) (rest : List Char)
    (h : (c :: rest).dropWhile p = c :: rest) : p c = false := by
  by_contra hc
  rw [List.dropWhile_cons, if_pos (by simpa using hc)] at h
  have h1 := (List.dropWhile_sublist p (l := rest)).length_le
  rw [h] at h1
  simp at h1

theorem join_words (u : Uni) :
    ∀ (s : List Char),
      s.dropWhile u.isWS = s →
      (∀ a, s.getLast? = some a → u.isWS a = false) →
      List.intercalate [' '] (splitWhitespace u s) = collapseWS u s
  | [], _, _ => by simp [splitWhitespace, collapseWS, List.intercalate]
  | c :: rest, hdw, hlast => by
      have hc : u.isWS c = false := head_nws u.isWS c rest hdw
      have hrest : rest.takeWhile (fun d => !u.isWS d) ++
          rest.dropWhile (fun d => !u.isWS d) = rest :=
        List.takeWhile_append_dropWhile _ _
      have hwf : ∀ d ∈ rest.takeWhile (fun d => !u.isWS d),
          u.isWS d = false :=
        fun d hd => by simpa using List.mem_takeWhile_imp hd
      have hcol2 : collapseWS u rest =
          rest.takeWhile (fun d => !u.isWS d) ++
            collapseWS u (rest.dropWhile (fun d => !u.isWS d)) := by
        conv_lhs => rw [← hrest]
        exact collapseWS_nonws_append u _ _ hwf
      rw [splitWhitespace, if_neg (by simp [hc]), collapseWS,
        if_neg (by simp [hc]), hcol2]
      cases hr : rest.dropWhile (fun d => !u.isWS d) with
      | nil => simp [splitWhitespace, collapseWS, intercalate_one]
      | cons d r2 =>
          have hd : u.isWS d = true := by
            have h0 := List.head?_dropWhile_not (fun d => !u.isWS d) rest
            rw [hr] at h0
            simpa using h0
          have hcd : collapseWS u (d :: r2) =
              ' ' :: collapseWS u (r2.dropWhile u.isWS) := by
            rw [collapseWS, if_pos hd]
          have hsd : splitWhitespace u (d :: r2) =
              splitWhitespace u (r2.dropWhile u.isWS) := by
            rw [splitWhitespace, if_pos hd, ← splitWhitespace_dropWhile u r2]
          have hzne : r2.dropWhile u.isWS ≠ [] := by
            intro hz
            have hall : ∀ x ∈ r2, u.isWS x = true := by
              have := List.dropWhile_eq_nil_iff.1 hz
              simpa using this
            obtain ⟨a, ha⟩ : ∃ a, (d :: r2).getLast? = some a :=
              Option.isSome_iff_exists.1 (List.getLast?_isSome.2 (by simp))
            have haws : u.isWS a = true := by
              rcases List.mem_cons.1 (List.mem_of_getLast?_eq_some ha) with
                h | h
              · rw [h]; exact hd
              · exact hall a h
            have hlast2 : (c :: rest).getLast? = some a := by
              conv_lhs => rw [← hrest, hr]
              have hrw : c :: (rest.takeWhile (fun d => !u.isWS d) ++
                  d :: r2) =
                  (c :: rest.takeWhile (fun d => !u.isWS d)) ++ (d :: r2) := by
                simp
              rw [hrw, List.getLast?_append, ha]
              rfl
            exact absurd (hlast a hlast2) (by simp [haws])
          have hzdw : (r2.dropWhile u.isWS).dropWhile u.isWS =
              r2.dropWhile u.isWS := List.dropWhile_idempotent _ _
          have hzlast : ∀ a, (r2.dropWhile u.isWS).getLast? = some a →
              u.isWS a = false := by
            intro a ha
            obtain ⟨t, ht⟩ := List.dropWhile_suffix u.isWS (l := r2)
            apply hlast a
            conv_lhs => rw [← hrest, hr]
            have hrw : c :: (rest.takeWhile (fun d => !u.isWS d) ++
                d :: r2) =
                ((c :: rest.takeWhile (fun d => !u.isWS d)) ++ (d :: t)) ++
                  r2.dropWhile u.isWS := by
              conv_lhs => rw [← ht]
              simp
            rw [hrw, List.getLast?_append, ha]
            rfl
          have IH := join_words u (r2.dropWhile u.isWS) hzdw hzlast
          have hS : splitWhitespace u (r2.dropWhile u.isWS) ≠ [] :=
            splitWhitespace_ne_nil_of_ne_nil u _ hzne hzdw
          rw [hsd, hcd]
          cases hSc : splitWhitespace u (r2.dropWhile u.isWS) with
          | nil => exact absurd hSc hS
          | cons b l =>
              rw [intercalate_two]
              rw [hSc] at IH
              rw [← IH]
              simp
  termination_by s => s.length
  decreasing_by
    have h1 := (List.dropWhile_sublist u.isWS (l := r2)).length_le
    have h2 := (List.dropWhile_sublist (fun d => !u.isWS d)
      (l := rest)).length_le
    rw [hr] at h2
    simp only [List.length_cons] at h2 ⊢
    omega

/-- C5: when the sanitized text is longer than 100 code units, the chunking
step is exactly `split_whitespace` — word tokens in original order, none
empty, and their concatenation joined by single spaces equals the sanitized
text with every whitespace run replaced by a single space; when it is at
most 100 code units, the whole sanitized text is the single chunk. -/
theorem C5_chunking (u : Uni) (x : List Char) :
    (100 < utf8Len (sanitize_text u x) →
      chunksOf u (sanitize_text u x) = splitWhitespace u (sanitize_text u x)
      ∧ (∀ w ∈ chunksOf u (sanitize_text u x), w ≠ [])
      ∧ List.intercalate [' '] (chunksOf u (sanitize_text u x)) =
          collapseWS u (sanitize_text u x))
    ∧ (utf8Len (sanitize_text u x) ≤ 100 →
      chunksOf u (sanitize_text u x) = [sanitize_text u x]) := by
  constructor
  · intro h
    have hc : chunksOf u (sanitize_text u x) =
        splitWhitespace u (sanitize_text u x) := by
      simp [chunksOf, h]
    refine ⟨hc, ?_, ?_⟩
    · rw [hc]
      exact splitWhitespace_ne_nil u _
    · rw [hc]
      exact join_words u _ (sanitize_dropWhile u x) (sanitize_getLast u x)
  · intro h
    simp [chunksOf, Nat.not_lt.2 h]

/-- Witness for C5 at a 101-code-unit sanitized input. -/
theorem C5_witness :
    chunksOf uniM (sanitize_text uniM "ab ab ab ab ab ab ab ab ab ab ab ab ab ab ab ab ab ab ab ab ab ab ab ab ab ab ab ab ab ab ab ab ab ab".toList) =
      splitWhitespace uniM (sanitize_text uniM "ab ab ab ab ab ab ab ab ab ab ab ab ab ab ab ab ab ab ab ab ab ab ab ab ab ab ab ab ab ab ab ab ab ab".toList)
    ∧ List.intercalate [' ']
        (chunksOf uniM (sanitize_text uniM "ab ab ab ab ab ab ab ab ab ab ab ab ab ab ab ab ab ab ab ab ab ab ab ab ab ab ab ab ab ab ab ab ab ab".toList)) =
      collapseWS uniM (sanitize_text uniM "ab ab ab ab ab ab ab ab ab ab ab ab ab ab ab ab ab ab ab ab ab ab ab ab ab ab ab ab ab ab ab ab ab ab".toList) := by
  have h := (C5_chunking uniM "ab ab ab ab ab ab ab ab ab ab ab ab ab ab ab ab ab ab ab ab ab ab ab ab ab ab ab ab ab ab ab ab ab ab".toList).1 (by decide)
  exact ⟨h.1, h.2.2⟩

theorem noTwoSpaces_tail (c : Char) (t : List Char)
    (h : noTwoSpaces (c :: t) = true) : noTwoSpaces t = true := by
  cases t with
  | nil => rfl
  | cons d t' =>
      simp only [noTwoSpaces, Bool.and_eq_true] at h
      exact h.2

theorem noTwoSpaces_cons_elim (c : Char) (t : List Char)
    (h : noTwoSpaces (c :: t) = true) :
    ¬(c = ' ' ∧ t.head? = some ' ') := by
  rintro ⟨h1, h2⟩
  cases t with
  | nil => simp at h2
  | cons d t' =>
      have hd : d = ' ' := by simpa using h2
      simp [noTwoSpaces, h1, hd] at h

theorem noTwoSpaces_cons_of (c : Char) (t : List Char)
    (h1 : ∀ d, t.head? = some d → ¬(c = ' ' ∧ d = ' '))
    (h2 : noTwoSpaces t = true) : noTwoSpaces (c :: t) = true := by
  cases t with
  | nil => rfl
  | cons d t' =>
      by_cases hc : c = ' '
      · by_cases hd : d = ' '
        · exact absurd ⟨hc, hd⟩ (h1 d rfl)
        · simp [noTwoSpaces, hc, hd, h2]
      · simp [noTwoSpaces, hc, h2]

theorem noTripleNL_tail (c : Char) (t : List Char)
    (h : noTripleNL (c :: t) = true) : noTripleNL t = true := by
  cases t with
  | nil => rfl
  | cons d t' =>
      cases t' with
      | nil => rfl
      | cons e t'' =>
          simp only [noTripleNL, Bool.and_eq_true] at h
          exact h.2

theorem noTripleNL_cons_elim (c : Char) (t : List Char)
    (h : noTripleNL (c :: t) = true) :
    ¬(c = '\n' ∧ t.head? = some '\n' ∧ t.tail.head? = some '\n') := by
  rintro ⟨h1, h2, h3⟩
  cases t with
  | nil => simp at h2
  | cons d t' =>
      have hd : d = '\n' := by simpa using h2
      cases t' with
      | nil => simp at h3
      | cons e t'' =>
          have he : e = '\n' := by simpa using h3
          simp [noTripleNL, h1, hd, he] at h

theorem noTripleNL_cons_of (c : Char) (t : List Char)
    (h1 : ¬(c = '\n' ∧ t.head? = some '\n' ∧ t.tail.head? = some '\n'))
    (h2 : noTripleNL t = true) : noTripleNL (c :: t) = true := by
  cases t with
  | nil => rfl
  | cons d t' =>
      cases t' with
      | nil => rfl
      | cons e t'' =>
          by_cases hc : c = '\n'
          · by_cases hd : d = '\n'
            · by_cases he : e = '\n'
              · exact absurd ⟨hc, by simp [hd], by simp [he]⟩ h1
              · subst hc
                subst hd
                simp [noTripleNL, he, h2]
            · simp [noTripleNL, hc, hd, h2]
          · simp [noTripleNL, hc, h2]

theorem head?_compressSpaces :
    ∀ (s : List Char), (compressSpaces s).head? = s.head?
  | [] => rfl
  | [c] => rfl
  | c :: d :: rest => by
      rw [compressSpaces]
      split
      · rename_i h
        rw [head?_compressSpaces (d :: rest)]
        simp [h.1, h.2]
      · simp

theorem head?_compressNewlines :
    ∀ (s : List Char), (compressNewlines s).head? = s.head?
  | [] => rfl
  | [c] => rfl
  | [c, d] => rfl
  | c :: d :: e :: rest => by
      rw [compressNewlines]
      split
      · rename_i h
        rw [head?_compressNewlines (d :: e :: rest)]
        simp [h.1, h.2.1]
      · simp

theorem noTwoSpaces_compressSpaces :
    ∀ (s : List Char), noTwoSpaces (compressSpaces s) = true
  | [] => rfl
  | [c] => rfl
  | c :: d :: rest => by
      rw [compressSpaces]
      split
      · exact noTwoSpaces_compressSpaces (d :: rest)
      · rename_i h
        apply noTwoSpaces_cons_of
        · intro f hf hand
          rw [head?_compressSpaces (d :: rest)] at hf
          have hfd : d = f := by simpa using hf
          exact h ⟨hand.1, by rw [hfd]; exact hand.2⟩
        · exact noTwoSpaces_compressSpaces (d :: rest)

theorem cNL_second (d e : Char) (rest : List Char) (he : e ≠ '\n') :
    compressNewlines (d :: e :: rest) = d :: compressNewlines (e :: rest) := by
  cases rest with
  | nil => rfl
  | cons f r =>
      rw [compressNewlines, if_neg (fun h => he h.2.1)]

theorem noTripleNL_compressNewlines :
    ∀ (s : List Char), noTripleNL (compressNewlines s) = true
  | [] => rfl
  | [c] => rfl
  | [c, d] => rfl
  | c :: d :: e :: rest => by
      rw [compressNewlines]
      split
      · exact noTripleNL_compressNewlines (d :: e :: rest)
      · rename_i hg
        apply noTripleNL_cons_of
        · rintro ⟨hc, h2, h3⟩
          rw [head?_compressNewlines (d :: e :: rest)] at h2
          have hd : d = '\n' := by simpa using h2
          have he : e ≠ '\n' := fun he => hg ⟨hc, hd, he⟩
          rw [cNL_second d e rest he, List.tail_cons,
            head?_compressNewlines (e :: rest)] at h3
          exact he (by simpa using h3)
        · exact noTripleNL_compressNewlines (d :: e :: rest)

theorem noTwoSpaces_compressNewlines :
    ∀ (s : List Char), noTwoSpaces s = true →
      noTwoSpaces (compressNewlines s) = true
  | [] => fun _ => rfl
  | [c] => fun _ => rfl
  | [c, d] => fun h => h
  | c :: d :: e :: rest => fun h => by
      rw [compressNewlines]
      split
      · exact noTwoSpaces_compressNewlines (d :: e :: rest)
          (noTwoSpaces_tail _ _ h)
      · apply noTwoSpaces_cons_of
        · intro f hf hand
          rw [head?_compressNewlines (d :: e :: rest)] at hf
          have hfd : d = f := by simpa using hf
          exact noTwoSpaces_cons_elim c (d :: e :: rest) h
            ⟨hand.1, by rw [List.head?_cons, hfd, hand.2]⟩
        · exact noTwoSpaces_compressNewlines (d :: e :: rest)
            (noTwoSpaces_tail _ _ h)

theorem take_head? (l : List Char) (k : Nat) (d : Char)
    (h : (l.take k).head? = some d) : l.head? = some d := by
  cases l <;> cases k <;> simp_all

theorem take_tail_head? (l : List Char) (k : Nat) (e : Char)
    (h : (l.take k).tail.head? = some e) : l.tail.head? = some e := by
  cases l with
  | nil => simp_all
  | cons d t =>
      cases k with
      | zero => simp_all
      | succ k' =>
          simp only [List.take_succ_cons, List.tail_cons] at h ⊢
          exact take_head? t k' e h

theorem noTwoSpaces_take :
    ∀ (s : List Char) (k : Nat), noTwoSpaces s = true →
      noTwoSpaces (s.take k) = true
  | [], k, _ => by simp [noTwoSpaces]
  | c :: t, 0, _ => rfl
  | c :: t, k + 1, h => by
      simp only [List.take_succ_cons]
      apply noTwoSpaces_cons_of
      · intro d hd hand
        exact noTwoSpaces_cons_elim c t h
          ⟨hand.1, (take_head? t k d hd).trans (by rw [hand.2])⟩
      · exact noTwoSpaces_take t k (noTwoSpaces_tail c t h)

theorem noTripleNL_take :
    ∀ (s : List Char) (k : Nat), noTripleNL s = true →
      noTripleNL (s.take k) = true
  | [], k, _ => by simp [noTripleNL]
  | c :: t, 0, _ => rfl
  | c :: t, k + 1, h => by
      simp only [List.take_succ_cons]
      apply noTripleNL_cons_of
      · rintro ⟨h1, h2, h3⟩
        exact noTripleNL_cons_elim c t h
          ⟨h1, take_head? t k _ h2, take_tail_head? t k _ h3⟩
      · exact noTripleNL_take t k (noTripleNL_tail c t h)

theorem noTwoSpaces_dropWhile (p : Char → Bool) :
    ∀ (s : List Char), noTwoSpaces s = true →
      noTwoSpaces (s.dropWhile p) = true
  | [], _ => rfl
  | c :: t, h => by
      rw [List.dropWhile_cons]
      split
      · exact noTwoSpaces_dropWhile p t (noTwoSpaces_tail c t h)
      · exact h

theorem noTripleNL_dropWhile (p : Char → Bool) :
    ∀ (s : List Char), noTripleNL s = true →
      noTripleNL (s.dropWhile p) = true
  | [], _ => rfl
  | c :: t, h => by
      rw [List.dropWhile_cons]
      split
      · exact noTripleNL_dropWhile p t (noTripleNL_tail c t h)
      · exact h

theorem trimEnd_take (u : Uni) :
    ∀ (s : List Char), ∃ k, trimEnd u s = s.take k
  | [] => ⟨0, rfl⟩
  | c :: rest => by
      rw [trimEnd]
      split
      · exact ⟨0, rfl⟩
      · obtain ⟨k, hk⟩ := trimEnd_take u rest
        exact ⟨k + 1, by rw [hk, List.take_succ_cons]⟩

theorem noTwoSpaces_trimEnd (u : Uni) (s : List Char)
    (h : noTwoSpaces s = true) : noTwoSpaces (trimEnd u s) = true := by
  obtain ⟨k, hk⟩ := trimEnd_take u s
  rw [hk]
  exact noTwoSpaces_take s k h

theorem noTripleNL_trimEnd (u : Uni) (s : List Char)
    (h : noTripleNL s = true) : noTripleNL (trimEnd u s) = true := by
  obtain ⟨k, hk⟩ := trimEnd_take u s
  rw [hk]
  exact noTripleNL_take s k h

theorem trimEnd_idem (u : Uni) :
    ∀ (s : List Char), trimEnd u (trimEnd u s) = trimEnd u s
  | [] => rfl
  | c :: rest => by
      rw [trimEnd]
      split
      · rfl
      · rename_i hg
        rw [trimEnd, trimEnd_idem u rest, if_neg hg]

theorem compressSpaces_eq_self :
    ∀ (s : List Char), noTwoSpaces s = true → compressSpaces s = s
  | [], _ => rfl
  | [c], _ => rfl
  | c :: d :: rest, h => by
      have hng : ¬(c = ' ' ∧ d = ' ') := fun hand =>
        noTwoSpaces_cons_elim c (d :: rest) h
          ⟨hand.1, by rw [List.head?_cons, hand.2]⟩
      rw [compressSpaces, if_neg hng,
        compressSpaces_eq_self (d :: rest) (noTwoSpaces_tail _ _ h)]

theorem compressNewlines_eq_self :
    ∀ (s : List Char), noTripleNL s = true → compressNewlines s = s
  | [], _ => rfl
  | [c], _ => rfl
  | [c, d], _ => rfl
  | c :: d :: e :: rest, h => by
      have hng : ¬(c = '\n' ∧ d = '\n' ∧ e = '\n') := fun hand =>
        noTripleNL_cons_elim c (d :: e :: rest) h
          ⟨hand.1, by rw [List.head?_cons, hand.2.1],
            by rw [List.tail_cons, List.head?_cons, hand.2.2]⟩
      rw [compressNewlines, if_neg hng,
        compressNewlines_eq_self (d :: e :: rest) (noTripleNL_tail _ _ h)]

theorem replaceCRLF_cons_ne (c : Char) (rest : List Char) (hc : c ≠ '\r') :
    replaceCRLF (c :: rest) = c :: replaceCRLF rest := by
  rw [replaceCRLF.eq_def]
  split <;> simp_all

theorem replaceCRLF_eq_self :
    ∀ (s : List Char), (∀ c ∈ s, c ≠ '\r') → replaceCRLF s = s
  | [], _ => rfl
  | c :: rest, h => by
      rw [replaceCRLF_cons_ne c rest (h c (by simp)),
        replaceCRLF_eq_self rest fun d hd => h d (by simp [hd])]

theorem replaceCR_eq_self (s : List Char) (h : ∀ c ∈ s, c ≠ '\r') :
    replaceCR s = s := by
  unfold replaceCR
  rw [List.map_congr_left fun c hc => if_neg (h c hc), List.map_id']

theorem unifyWS_eq_self (u : Uni) (s : List Char)
    (h : ∀ c ∈ s, u.isWS c = true → c = ' ' ∨ c = '\n') :
    unifyWS u s = s := by
  unfold unifyWS
  have hfix : ∀ c ∈ s,
      (if c = '\n' then '\n' else if u.isWS c then ' ' else c) = c := by
    intro c hc
    by_cases h1 : c = '\n'
    · simp [h1]
    · rw [if_neg h1]
      by_cases h2 : u.isWS c = true
      · rcases h c hc h2 with h3 | h3
        · simp [h2, h3]
        · exact absurd h3 h1
      · simp [h2]
  rw [List.map_congr_left hfix, List.map_id']

theorem mem_unifyWS {u : Uni} {c : Char} {s : List Char}
    (h : c ∈ unifyWS u s) : c = '\n' ∨ c = ' ' ∨ u.isWS c = false := by
  unfold unifyWS at h
  obtain ⟨a, ha, hfa⟩ := List.mem_map.1 h
  by_cases h1 : a = '\n'
  · left
    rw [← hfa]
    simp [h1]
  · rw [if_neg h1] at hfa
    by_cases h2 : u.isWS a = true
    · right; left
      rw [← hfa]
      simp [h2]
    · right; right
      rw [if_neg h2] at hfa
      rw [← hfa]
      simpa using h2

theorem sanitize_wsNorm (u : Uni) (x : List Char) :
    ∀ c ∈ sanitize_text u x, u.isWS c = true → c = ' ' ∨ c = '\n' := by
  intro c hc hws
  have h1 : c ∈ unifyWS u (u.nfkc (normLines x)) :=
    (List.mem_filter.1
      (mem_compressSpaces _ (mem_compressNewlines _ (mem_trim hc)))).1
  rcases mem_unifyWS h1 with h | h | h
  · right; exact h
  · left; exact h
  · rw [h] at hws
    cases hws

/-- C2 fails on the code: NFKC runs before the whitelist filter, so
deleting a disallowed character that separates two Hangul jamo leaves a
jamo pair that a second application of `sanitize_text` NFKC-composes into
a precomposed syllable.  On the input U+1100 '!' U+1161 the first pass
yields the two jamo ⟨U+1100, U+1161⟩, while the second pass yields the
single syllable U+AC00, so `sanitize_text` is not idempotent. -/
theorem C2_counterexample :
    sanitize_text uniM ['ᄀ', '!', 'ᅡ'] = ['ᄀ', 'ᅡ']
    ∧ sanitize_text uniM (sanitize_text uniM ['ᄀ', '!', 'ᅡ']) = ['가']
    ∧ sanitize_text uniM (sanitize_text uniM ['ᄀ', '!', 'ᅡ']) ≠
        sanitize_text uniM ['ᄀ', '!', 'ᅡ'] :=
  ⟨by decide, by decide, by decide⟩

/-- C2 amended: `sanitize_text` is idempotent on every input whose
sanitized output is a fixed point of NFKC (carriage return being
whitespace, as it is in Unicode).  The only way a second pass can change
anything is NFKC recomposition across characters the first pass deleted,
as in the counterexample. -/
theorem C2_amended_idempotent (u : Uni) (x : List Char)
    (hcr : u.isWS '\r' = true)
    (hn : u.nfkc (sanitize_text u x) = sanitize_text u x) :
    sanitize_text u (sanitize_text u x) = sanitize_text u x := by
  have hW : ∀ c ∈ sanitize_text u x, u.isWS c = true → c = ' ' ∨ c = '\n' :=
    sanitize_wsNorm u x
  have hR : ∀ c ∈ sanitize_text u x, c ≠ '\r' := by
    intro c hc he
    subst he
    rcases hW '\r' hc hcr with h | h <;> exact absurd h (by decide)
  have h1 : normLines (sanitize_text u x) = sanitize_text u x := by
    unfold normLines
    rw [replaceCRLF_eq_self _ hR, replaceCR_eq_self _ hR]
  have h3 : unifyWS u (sanitize_text u x) = sanitize_text u x :=
    unifyWS_eq_self u _ hW
  have h4 : filterAllowed u (sanitize_text u x) = sanitize_text u x :=
    List.filter_eq_self.2 fun c hc => mem_sanitize_allowed hc
  have hts : noTwoSpaces (sanitize_text u x) = true := by
    unfold sanitize_text trim
    exact noTwoSpaces_trimEnd u _ (noTwoSpaces_dropWhile u.isWS _
      (noTwoSpaces_compressNewlines _ (noTwoSpaces_compressSpaces _)))
  have htn : noTripleNL (sanitize_text u x) = true := by
    unfold sanitize_text trim
    exact noTripleNL_trimEnd u _ (noTripleNL_dropWhile u.isWS _
      (noTripleNL_compressNewlines _))
  have h5 : compressSpaces (sanitize_text u x) = sanitize_text u x :=
    compressSpaces_eq_self _ hts
  have h6 : compressNewlines (sanitize_text u x) = sanitize_text u x :=
    compressNewlines_eq_self _ htn
  have h7 : trim u (sanitize_text u x) = sanitize_text u x := by
    unfold trim
    rw [sanitize_dropWhile u x]
    show trimEnd u (sanitize_text u x) = sanitize_text u x
    unfold sanitize_text trim
    exact trimEnd_idem u _
  calc sanitize_text u (sanitize_text u x)
      = trim u (compressNewlines (compressSpaces (filterAllowed u
          (unifyWS u (u.nfkc (normLines (sanitize_text u x))))))) := rfl
    _ = sanitize_text u x := by rw [h1, hn, h3, h4, h5, h6, h7]

/-- Witness for the amended C2 at a concrete input whose sanitized output
is NFKC-inert. -/
theorem C2_witness :
    sanitize_text uniM (sanitize_text uniM "Hi !".toList) =
      sanitize_text uniM "Hi !".toList :=
  C2_amended_idempotent uniM "Hi !".toList (by decide) (by decide)
